import Mathlib

/-!
Verification of the n-gram indexing core of the Google fingerspelling
data loader (`myosuite/data/google_fingerspelling.py`) and of the
memoized parquet cache of `fingerspell_stats.py`.

Phrases are embedded as `List Char`, Python sets as `Finset`, and the
Python dictionaries of the index builder as functions (with `Option` /
default values standing for absent keys).  Machine-level concerns
(pandas I/O, file paths) are out of scope; the loop logic is embedded
faithfully, statement by statement.
-/

namespace Fingerspelling

/-- The null sentinel character `'\0'` used by the extractor. -/
def nullChar : Char := '\x00'

/-- Python `line[i:i+4]`. -/
def windowAt (line : List Char) (i : Nat) : List Char :=
  (line.drop i).take 4

/-- The four variants the source builds from one window `g`:
`g`, `'\0' + g[1:]`, `g[:3] + '\0'`, `'\0' + g[1:3] + '\0'`
(in the order the code adds them). -/
def gramVariants (g : List Char) : List (List Char) :=
  [g,
   nullChar :: g.drop 1,
   g.take 3 ++ [nullChar],
   nullChar :: ((g.drop 1).take 2 ++ [nullChar])]

/-- Python `[line[i:i+4] for i in range(len(line) - 3) if len(line) >= 4]`. -/
def possibleGrams (line : List Char) : List (List Char) :=
  (List.range (line.length - 3)).filterMap
    (fun i => if 4 ≤ line.length then some (windowAt line i) else none)

/-- Inner body of `get_4_grams`: the four `four_grams.add(...)` calls for
one window. -/
def addVariants (acc : Finset (List Char)) (g : List Char) : Finset (List Char) :=
  (gramVariants g).foldl (fun a v => insert v a) acc

/-- `GoogleFingerspellingLoader.get_4_grams`. -/
def get_4_grams (corpus : List (List Char)) : Finset (List Char) :=
  corpus.foldl (fun acc line => (possibleGrams line).foldl addVariants acc) ∅

/-- `GoogleFingerspellingLoader.get_char_product`.  The Python function
mutates `char_subset` in place (adding `'\0'` and `' '`) before taking the
product; the mutation is made explicit by returning the updated subset as
the first component alongside the pruned product as the second. -/
def get_char_product (char_subset : Finset Char) (dictionary : Finset (List Char)) :
    Finset Char × Finset (List Char) :=
  let s := insert ' ' (insert nullChar char_subset)
  let possible_chars :=
    (s ×ˢ s ×ˢ s ×ˢ s).image (fun p => [p.1, p.2.1, p.2.2.1, p.2.2.2])
  (s, possible_chars ∩ dictionary)

/-- One occurrence record `(file_index, sequence_index, start_pos, end_pos,
phrase_length)` appended to `result_dict`. -/
structure OccRec where
  fileIndex : Nat
  seqIndex : Nat
  startPos : Nat
  endPos : Nat
  phraseLen : Nat
deriving DecidableEq, Repr

/-- One metadata row as unpacked by the builder's loop
`(df_path, _, seq_id, _, phrase)`; the two ignored columns are omitted. -/
structure Row where
  path : String
  seq_id : Nat
  phrase : List Char

/-- One interning table pair (`index_to_*`, `*_to_index`) together with its
running counter. -/
structure Interner (V : Type) where
  count : Nat
  indexToVal : Nat → Option V
  valToIndex : V → Option Nat

/-- The three empty dictionaries and zero counter the builder starts with. -/
def Interner.init {V : Type} : Interner V :=
  { count := 0, indexToVal := fun _ => none, valToIndex := fun _ => none }

/-- The `if value not in *_to_index:` block of the builder: assign the next
index to a fresh value, leave an already-interned value untouched. -/
def internStep {V : Type} [DecidableEq V] (st : Interner V) (v : V) : Interner V :=
  if st.valToIndex v = none then
    { count := st.count + 1,
      indexToVal := fun i => if i = st.count then some v else st.indexToVal i,
      valToIndex := fun w => if w = v then some st.count else st.valToIndex w }
  else st

/-- The `result_dict` update: `result_dict[check] = [rec]` when the key is
absent, `result_dict[check].append(rec)` otherwise.  An absent key is
represented by the empty list. -/
def addRec (d : List Char → List OccRec) (k : List Char) (r : OccRec) :
    List Char → List OccRec :=
  fun k2 => if k2 = k then (if d k = [] then [r] else d k ++ [r]) else d k2

/-- The mutable state of `get_valid_filenames_per_ngram`'s loop. -/
structure BuildState where
  files : Interner String
  seqs : Interner Nat
  dict : List Char → List OccRec

/-- Initial builder state. -/
def BuildState.init : BuildState :=
  { files := Interner.init, seqs := Interner.init, dict := fun _ => [] }

/-- Body of `for check in checklist:` for one candidate key, at window
index `i` of `row`. -/
def processCheck (possible : Finset (List Char)) (row : Row) (i : Nat)
    (st : BuildState) (check : List Char) : BuildState :=
  if check ∈ possible then
    let files := internStep st.files row.path
    let seqs := internStep st.seqs row.seq_id
    { files := files, seqs := seqs,
      dict := addRec st.dict check
        { fileIndex := (files.valToIndex row.path).getD 0,
          seqIndex := (seqs.valToIndex row.seq_id).getD 0,
          startPos := i, endPos := i + 4, phraseLen := row.phrase.length } }
  else st

/-- Body of the builder's outer `for _, (...) in metadata.iterrows():`
loop: enumerate the windows of the row's phrase and run the checklist of
the four variants for each. -/
def processRow (possible : Finset (List Char)) (st : BuildState) (row : Row) :
    BuildState :=
  ((possibleGrams row.phrase).enum).foldl
    (fun st1 ig => (gramVariants ig.2).foldl (processCheck possible row ig.1) st1) st

/-- The builder state after scanning all metadata rows. -/
def buildFinal (metadata : List Row) (possible : Finset (List Char)) : BuildState :=
  metadata.foldl (processRow possible) BuildState.init

/-- `GoogleFingerspellingLoader.get_valid_filenames_per_ngram`: returns
`result_dict`, `index_to_filename` and `index_to_sequence`. -/
def get_valid_filenames_per_ngram (metadata : List Row) (possible : Finset (List Char)) :
    (List Char → List OccRec) × (Nat → Option String) × (Nat → Option Nat) :=
  let st := buildFinal metadata possible
  (st.dict, st.files.indexToVal, st.seqs.indexToVal)

/-- The loader's fields after `__init__` (the pandas CSV read is out of
scope: the parsed metadata rows are taken directly).  `char_subset` is the
very set object the caller passed, which `get_char_product` has mutated,
so the stored field is the mutated set. -/
structure Loader where
  char_subset : Finset Char
  max_interp_frames : Int
  possible_chars : Finset (List Char)
  valid_filenames : List Char → List OccRec
  index_to_filename : Nat → Option String
  index_to_seq : Nat → Option Nat

/-- `GoogleFingerspellingLoader.__init__`, minus the file I/O.  Note that
no validation of `max_interp_frames` (or of the subset size) occurs: every
argument is accepted and stored. -/
def initLoader (metadata : List Row) (char_subset : Finset Char)
    (max_interp_frames : Int) : Loader :=
  let pr := get_char_product char_subset (get_4_grams (metadata.map Row.phrase))
  let r := get_valid_filenames_per_ngram metadata pr.2
  { char_subset := pr.1,
    max_interp_frames := max_interp_frames,
    possible_chars := pr.2,
    valid_filenames := r.1,
    index_to_filename := r.2.1,
    index_to_seq := r.2.2 }

/-! Concrete data for the end-to-end scenario of the spec. -/

/-- The corpus `["cat", "cats"]`. -/
def exCorpus : List (List Char) := [['c', 'a', 't'], ['c', 'a', 't', 's']]

/-- The requested character subset `{'c','a','t','s'}`. -/
def exS : Finset Char := {'c', 'a', 't', 's'}

/-- The four expected keys `{"cats", "\0ats", "cat\0", "\0at\0"}`. -/
def exD : Finset (List Char) :=
  {['c', 'a', 't', 's'],
   [nullChar, 'a', 't', 's'],
   ['c', 'a', 't', nullChar],
   [nullChar, 'a', 't', nullChar]}

/-- The single metadata row `("catfile.parquet", 1, "cats")`. -/
def exRow : Row := { path := "catfile.parquet", seq_id := 1, phrase := ['c', 'a', 't', 's'] }

/-! Basic lemmas about the extractor. -/

lemma foldl_insert_eq {α : Type} [DecidableEq α] (l : List α) (acc : Finset α) :
    l.foldl (fun a v => insert v a) acc = acc ∪ l.toFinset := by
  induction l generalizing acc with
  | nil => simp
  | cons x xs ih =>
    simp [List.foldl_cons, ih, Finset.insert_union, Finset.union_insert]

lemma addVariants_eq (acc : Finset (List Char)) (g : List Char) :
    addVariants acc g = acc ∪ (gramVariants g).toFinset :=
  foldl_insert_eq _ _

lemma mem_addVariants {k : List Char} {acc : Finset (List Char)} {g : List Char} :
    k ∈ addVariants acc g ↔ k ∈ acc ∨ k ∈ gramVariants g := by
  rw [addVariants_eq]
  simp [List.mem_toFinset]

lemma mem_foldl_addVariants {k : List Char} (gs : List (List Char))
    (acc : Finset (List Char)) :
    k ∈ gs.foldl addVariants acc ↔ k ∈ acc ∨ ∃ g ∈ gs, k ∈ gramVariants g := by
  induction gs generalizing acc with
  | nil => simp
  | cons g gs ih =>
    rw [List.foldl_cons, ih, mem_addVariants]
    simp [or_assoc]

lemma possibleGrams_eq (line : List Char) :
    possibleGrams line =
      if 4 ≤ line.length then (List.range (line.length - 3)).map (windowAt line)
      else [] := by
  by_cases h : 4 ≤ line.length
  · rw [if_pos h]
    unfold possibleGrams
    simp only [h, if_true]
    exact congrFun (List.filterMap_eq_map _) _
  · rw [if_neg h]
    unfold possibleGrams
    simp [h]

lemma mem_possibleGrams {g line : List Char} :
    g ∈ possibleGrams line ↔
      4 ≤ line.length ∧ ∃ i, i < line.length - 3 ∧ g = windowAt line i := by
  rw [possibleGrams_eq]
  by_cases h : 4 ≤ line.length <;> simp [h, List.mem_map, eq_comm]

lemma get_4_grams_singleton (line : List Char) :
    get_4_grams [line] = (possibleGrams line).foldl addVariants ∅ := rfl

/-- C4: a phrase of length `< 4` contributes no keys; a phrase of length
`L ≥ 4` contributes, for each of the `L - 3` start offsets, exactly the
four variants of its window there, hence at most `4 * (L - 3)` distinct
keys after set deduplication. -/
theorem c4_extractor_cardinality (line : List Char) :
    (line.length < 4 → get_4_grams [line] = ∅) ∧
    (4 ≤ line.length →
      (∀ k, k ∈ get_4_grams [line] ↔
        ∃ i, i < line.length - 3 ∧ k ∈ gramVariants (windowAt line i)) ∧
      (get_4_grams [line]).card ≤ 4 * (line.length - 3)) := by
  have hmem : ∀ k, k ∈ get_4_grams [line] ↔
      4 ≤ line.length ∧ ∃ i, i < line.length - 3 ∧ k ∈ gramVariants (windowAt line i) := by
    intro k
    rw [get_4_grams_singleton, mem_foldl_addVariants]
    simp only [Finset.not_mem_empty, false_or]
    constructor
    · rintro ⟨g, hg, hkg⟩
      rcases mem_possibleGrams.mp hg with ⟨hlen, i, hi, rfl⟩
      exact ⟨hlen, i, hi, hkg⟩
    · rintro ⟨hlen, i, hi, hk⟩
      exact ⟨windowAt line i, mem_possibleGrams.mpr ⟨hlen, i, hi, rfl⟩, hk⟩
  constructor
  · intro hshort
    apply Finset.eq_empty_of_forall_not_mem
    intro k hk
    exact absurd ((hmem k).mp hk).1 (not_le.mpr hshort)
  · intro hlen
    refine ⟨fun k => by rw [hmem k]; simp [hlen], ?_⟩
    have hsub : get_4_grams [line] ⊆
        (Finset.range (line.length - 3)).biUnion
          (fun i => (gramVariants (windowAt line i)).toFinset) := by
      intro k hk
      rcases ((hmem k).mp hk).2 with ⟨i, hi, hki⟩
      exact Finset.mem_biUnion.mpr
        ⟨i, Finset.mem_range.mpr hi, List.mem_toFinset.mpr hki⟩
    calc (get_4_grams [line]).card
        ≤ ((Finset.range (line.length - 3)).biUnion
            (fun i => (gramVariants (windowAt line i)).toFinset)).card :=
          Finset.card_le_card hsub
      _ ≤ ∑ i ∈ Finset.range (line.length - 3),
            (gramVariants (windowAt line i)).toFinset.card :=
          Finset.card_biUnion_le
      _ ≤ (Finset.range (line.length - 3)).card • 4 :=
          Finset.sum_le_card_nsmul _ _ 4
            (fun i _ => le_trans (List.toFinset_card_le _) (by simp [gramVariants]))
      _ = 4 * (line.length - 3) := by
          simp [smul_eq_mul, Nat.mul_comm]

/-- A length-5 phrase used to exercise the `L ≥ 4` branch of C4. -/
def exLine5 : List Char := ['h', 'e', 'l', 'l', 'o']

/-- Witness for C4: concrete instances of both branches. -/
theorem c4_extractor_cardinality_witness :
    get_4_grams [['c', 'a', 't']] = ∅ ∧
    (get_4_grams [exLine5]).card ≤ 4 * (exLine5.length - 3) :=
  ⟨(c4_extractor_cardinality ['c', 'a', 't']).1 (by decide),
   ((c4_extractor_cardinality exLine5).2 (by decide)).2⟩

/-! The end-to-end scenario. -/

lemma get_4_grams_exCorpus : get_4_grams exCorpus = exD := by decide

lemma prune_exD : (get_char_product exS exD).2 = exD := by
  simp only [get_char_product]
  refine Finset.inter_eq_right.mpr ?_
  intro x hx
  fin_cases hx
  · exact Finset.mem_image.mpr ⟨('c', 'a', 't', 's'),
      Finset.mem_product.mpr ⟨by decide, Finset.mem_product.mpr ⟨by decide,
        Finset.mem_product.mpr ⟨by decide, by decide⟩⟩⟩, rfl⟩
  · exact Finset.mem_image.mpr ⟨(nullChar, 'a', 't', 's'),
      Finset.mem_product.mpr ⟨by decide, Finset.mem_product.mpr ⟨by decide,
        Finset.mem_product.mpr ⟨by decide, by decide⟩⟩⟩, rfl⟩
  · exact Finset.mem_image.mpr ⟨('c', 'a', 't', nullChar),
      Finset.mem_product.mpr ⟨by decide, Finset.mem_product.mpr ⟨by decide,
        Finset.mem_product.mpr ⟨by decide, by decide⟩⟩⟩, rfl⟩
  · exact Finset.mem_image.mpr ⟨(nullChar, 'a', 't', nullChar),
      Finset.mem_product.mpr ⟨by decide, Finset.mem_product.mpr ⟨by decide,
        Finset.mem_product.mpr ⟨by decide, by decide⟩⟩⟩, rfl⟩

/-- C1: for the corpus `["cat", "cats"]` and subset `{'c','a','t','s'}`,
the extractor returns exactly `{"cats", "\0ats", "cat\0", "\0at\0"}`
("cat" contributes nothing), pruning with that subset returns the same
set unchanged, and the index built from the single row
`("catfile.parquet", 1, "cats")` maps the key `"cats"` to exactly the one
occurrence record `(0, 0, 0, 4, 4)`. -/
theorem c1_end_to_end :
    get_4_grams exCorpus = exD ∧
    (get_char_product exS (get_4_grams exCorpus)).2 = exD ∧
    (get_valid_filenames_per_ngram [exRow]
        ((get_char_product exS (get_4_grams exCorpus)).2)).1 ['c', 'a', 't', 's'] =
      [{ fileIndex := 0, seqIndex := 0, startPos := 0, endPos := 4, phraseLen := 4 }] := by
  refine ⟨get_4_grams_exCorpus, ?_, ?_⟩
  · rw [get_4_grams_exCorpus]
    exact prune_exD
  · rw [get_4_grams_exCorpus, prune_exD]
    decide

/-- C5: pruning is idempotent: applying `get_char_product` a second time
to its own output leaves it unchanged. -/
theorem c5_prune_idempotent (S : Finset Char) (D : Finset (List Char)) :
    (get_char_product S (get_char_product S D).2).2 = (get_char_product S D).2 := by
  simp only [get_char_product]
  rw [← Finset.inter_assoc, Finset.inter_self]

/-- C6: every member of the pruned set has length exactly 4, uses only
characters from the requested subset extended with the null sentinel and
the space, and belongs to the input dictionary. -/
theorem c6_valid_key_invariant (S : Finset Char) (D : Finset (List Char)) :
    ∀ k ∈ (get_char_product S D).2,
      k.length = 4 ∧ (∀ c ∈ k, c ∈ S ∨ c = nullChar ∨ c = ' ') ∧ k ∈ D := by
  intro k hk
  have hins : ∀ c : Char, c ∈ insert ' ' (insert nullChar S) →
      c ∈ S ∨ c = nullChar ∨ c = ' ' := by
    intro c h
    rcases Finset.mem_insert.mp h with h | h
    · exact Or.inr (Or.inr h)
    · rcases Finset.mem_insert.mp h with h | h
      · exact Or.inr (Or.inl h)
      · exact Or.inl h
  simp only [get_char_product, Finset.mem_inter, Finset.mem_image] at hk
  obtain ⟨⟨p, hp, rfl⟩, hd⟩ := hk
  obtain ⟨h1, hp2⟩ := Finset.mem_product.mp hp
  obtain ⟨h2, hp3⟩ := Finset.mem_product.mp hp2
  obtain ⟨h3, h4⟩ := Finset.mem_product.mp hp3
  refine ⟨rfl, ?_, hd⟩
  intro c hc
  rcases hc with _ | ⟨_, hc⟩
  · exact hins _ h1
  rcases hc with _ | ⟨_, hc⟩
  · exact hins _ h2
  rcases hc with _ | ⟨_, hc⟩
  · exact hins _ h3
  rcases hc with _ | ⟨_, hc⟩
  · exact hins _ h4
  · cases hc

/-- Witness for C6, at the key `"cats"` of the end-to-end scenario. -/
theorem c6_valid_key_invariant_witness :
    (['c', 'a', 't', 's'] : List Char).length = 4 ∧
    (∀ c ∈ (['c', 'a', 't', 's'] : List Char), c ∈ exS ∨ c = nullChar ∨ c = ' ') ∧
    (['c', 'a', 't', 's'] : List Char) ∈ exD :=
  c6_valid_key_invariant exS exD ['c', 'a', 't', 's']
    (by rw [prune_exD]; decide)

/-- C10: `get_char_product` mutates its `char_subset` argument in place,
adding the null sentinel and the space; the loader stores that same
(mutated) set, so after construction `self.char_subset` contains `'\0'`
and `' '`.  In this embedding the mutation is the first component of the
returned pair, and it is the only state the function touches. -/
theorem c10_subset_mutation (S : Finset Char) (D : Finset (List Char))
    (metadata : List Row) (mi : Int) :
    (get_char_product S D).1 = insert ' ' (insert nullChar S) ∧
    nullChar ∈ (get_char_product S D).1 ∧
    ' ' ∈ (get_char_product S D).1 ∧
    (initLoader metadata S mi).char_subset =
      (get_char_product S (get_4_grams (metadata.map Row.phrase))).1 ∧
    nullChar ∈ (initLoader metadata S mi).char_subset ∧
    ' ' ∈ (initLoader metadata S mi).char_subset := by
  refine ⟨rfl, ?_, ?_, rfl, ?_, ?_⟩ <;>
    simp [get_char_product, initLoader, Finset.mem_insert]

/-- C8 counterexample: the constructor performs no validation at all, so a
negative `max_interp_frames` is accepted and stored, with construction
proceeding exactly as it does for zero — it is not rejected. -/
theorem c8_counterexample :
    (initLoader [exRow] exS (-1)).max_interp_frames = -1 ∧
    (initLoader [exRow] exS (-1)).possible_chars =
      (initLoader [exRow] exS 0).possible_chars ∧
    (initLoader [exRow] exS 0).max_interp_frames = 0 :=
  ⟨rfl, rfl, rfl⟩

/-- C8 amended: constructing the loader never rejects `max_interp_frames`:
a negative value is accepted and stored unchanged, exactly as zero is, and
the rest of the construction is independent of it. -/
theorem c8_no_validation (metadata : List Row) (S : Finset Char) (mi mi2 : Int) :
    (initLoader metadata S mi).max_interp_frames = mi ∧
    (initLoader metadata S mi).possible_chars =
      (initLoader metadata S mi2).possible_chars ∧
    (initLoader metadata S mi).valid_filenames =
      (initLoader metadata S mi2).valid_filenames ∧
    (initLoader metadata S mi).char_subset =
      (initLoader metadata S mi2).char_subset :=
  ⟨rfl, rfl, rfl, rfl⟩

/-! The index builder: completeness and ordering (C2). -/

lemma foldl_preserve {α β : Type} (P : β → Prop) {l : List α} {f : β → α → β} {b : β}
    (hb : P b) (hf : ∀ b2 a, a ∈ l → P b2 → P (f b2 a)) : P (l.foldl f b) := by
  induction l generalizing b with
  | nil => exact hb
  | cons x xs ih =>
    exact ih (hf b x (by simp) hb) (fun b2 a ha => hf b2 a (by simp [ha]))

lemma addRec_apply (d : List Char → List OccRec) (k : List Char) (r : OccRec)
    (k2 : List Char) :
    addRec d k r k2 = if k2 = k then d k ++ [r] else d k2 := by
  unfold addRec
  by_cases h : d k = [] <;> simp [h]

lemma mem_addRec {d : List Char → List OccRec} {k0 : List Char} {rc : OccRec}
    {k : List Char} {r : OccRec} (h : r ∈ addRec d k0 rc k) :
    r ∈ d k ∨ (k = k0 ∧ r = rc) := by
  rw [addRec_apply] at h
  by_cases hk : k = k0
  · subst hk
    rw [if_pos rfl] at h
    rcases List.mem_append.mp h with h | h
    · exact Or.inl h
    · exact Or.inr ⟨rfl, by simpa using h⟩
  · rw [if_neg hk] at h
    exact Or.inl h

lemma processCheck_dict (possible : Finset (List Char)) (row : Row) (i : Nat)
    (st : BuildState) (check : List Char) (hin : check ∈ possible) :
    (processCheck possible row i st check).dict =
      addRec st.dict check
        { fileIndex := ((internStep st.files row.path).valToIndex row.path).getD 0,
          seqIndex := ((internStep st.seqs row.seq_id).valToIndex row.seq_id).getD 0,
          startPos := i, endPos := i + 4, phraseLen := row.phrase.length } := by
  unfold processCheck
  rw [if_pos hin]

lemma processCheck_skip (possible : Finset (List Char)) (row : Row) (i : Nat)
    (st : BuildState) (check : List Char) (hin : check ∉ possible) :
    processCheck possible row i st check = st := by
  unfold processCheck
  rw [if_neg hin]

lemma possibleGrams_getElem {line : List Char} {i : Nat} {g : List Char}
    (h : (possibleGrams line)[i]? = some g) :
    4 ≤ line.length ∧ i < line.length - 3 ∧ g = windowAt line i := by
  rw [possibleGrams_eq] at h
  by_cases hl : 4 ≤ line.length
  · rw [if_pos hl, List.getElem?_map] at h
    by_cases hi : i < line.length - 3
    · rw [List.getElem?_range hi] at h
      simp at h
      exact ⟨hl, hi, h.symm⟩
    · rw [List.getElem?_eq_none (by simpa using not_lt.mp hi)] at h
      simp at h
  · rw [if_neg hl] at h
    simp at h

/-- What C2 requires of one record stored under key `k`: the record's
window is 4 characters wide, and `k` is the literal window of the row's
phrase at `startPos` or one of its three sentinel-substituted variants. -/
def RecOK (metadata : List Row) (k : List Char) (r : OccRec) : Prop :=
  r.endPos - r.startPos = 4 ∧
  ∃ row ∈ metadata, ∃ i, 4 ≤ row.phrase.length ∧ i < row.phrase.length - 3 ∧
    k ∈ gramVariants (windowAt row.phrase i) ∧
    r.startPos = i ∧ r.endPos = i + 4 ∧ r.phraseLen = row.phrase.length

lemma processCheck_recOK {metadata : List Row} {possible : Finset (List Char)}
    {row : Row} {i : Nat} {g check : List Char} (hrow : row ∈ metadata)
    (hg : (possibleGrams row.phrase)[i]? = some g) (hcheck : check ∈ gramVariants g)
    {st : BuildState} (hst : ∀ k r, r ∈ st.dict k → RecOK metadata k r) :
    ∀ k r, r ∈ (processCheck possible row i st check).dict k → RecOK metadata k r := by
  intro k r hr
  by_cases hin : check ∈ possible
  · rw [processCheck_dict possible row i st check hin] at hr
    rcases mem_addRec hr with h | ⟨rfl, rfl⟩
    · exact hst k r h
    · obtain ⟨hlen, hi, hwin⟩ := possibleGrams_getElem hg
      subst hwin
      exact ⟨by simp, row, hrow, i, hlen, hi, hcheck, rfl, rfl, rfl⟩
  · rw [processCheck_skip possible row i st check hin] at hr
    exact hst k r hr

lemma processRow_recOK {metadata : List Row} {possible : Finset (List Char)}
    {row : Row} (hrow : row ∈ metadata) {st : BuildState}
    (hst : ∀ k r, r ∈ st.dict k → RecOK metadata k r) :
    ∀ k r, r ∈ (processRow possible st row).dict k → RecOK metadata k r := by
  unfold processRow
  refine foldl_preserve
    (fun st2 : BuildState => ∀ k r, r ∈ st2.dict k → RecOK metadata k r) hst ?_
  intro st1 ig hig h1
  refine foldl_preserve
    (fun st2 : BuildState => ∀ k r, r ∈ st2.dict k → RecOK metadata k r) h1 ?_
  intro st2 check hcheck h2
  exact processCheck_recOK hrow (List.mem_enum_iff_getElem?.mp hig) hcheck h2

lemma buildFinal_recOK (metadata : List Row) (possible : Finset (List Char)) :
    ∀ k r, r ∈ (buildFinal metadata possible).dict k → RecOK metadata k r := by
  unfold buildFinal
  refine foldl_preserve
    (fun st : BuildState => ∀ k r, r ∈ st.dict k → RecOK metadata k r) ?_ ?_
  · intro k r hr
    cases hr
  · intro st row hrow hst
    exact processRow_recOK hrow hst

/-- `d2` extends `d1`: every per-key occurrence list of `d1` is an initial
segment of the corresponding list of `d2`. -/
def DictExtends (d1 d2 : List Char → List OccRec) : Prop :=
  ∀ k, ∃ suf, d2 k = d1 k ++ suf

lemma dictExtends_refl (d : List Char → List OccRec) : DictExtends d d :=
  fun k => ⟨[], by simp⟩

lemma dictExtends_trans {d1 d2 d3 : List Char → List OccRec}
    (h12 : DictExtends d1 d2) (h23 : DictExtends d2 d3) : DictExtends d1 d3 := by
  intro k
  obtain ⟨s1, hs1⟩ := h12 k
  obtain ⟨s2, hs2⟩ := h23 k
  exact ⟨s1 ++ s2, by rw [hs2, hs1, List.append_assoc]⟩

lemma processCheck_extends (possible : Finset (List Char)) (row : Row) (i : Nat)
    (st : BuildState) (check : List Char) :
    DictExtends st.dict (processCheck possible row i st check).dict := by
  by_cases hin : check ∈ possible
  · rw [processCheck_dict possible row i st check hin]
    intro k
    rw [addRec_apply]
    by_cases hk : k = check
    · subst hk
      exact ⟨_, if_pos rfl⟩
    · exact ⟨[], by rw [if_neg hk, List.append_nil]⟩
  · rw [processCheck_skip possible row i st check hin]
    exact dictExtends_refl _

lemma foldl_extends {α : Type} {f : BuildState → α → BuildState}
    (hf : ∀ st a, DictExtends st.dict (f st a).dict) (l : List α) (st : BuildState) :
    DictExtends st.dict ((l.foldl f st)).dict := by
  induction l generalizing st with
  | nil => exact dictExtends_refl _
  | cons x xs ih => exact dictExtends_trans (hf st x) (ih (f st x))

lemma processRow_extends (possible : Finset (List Char)) (st : BuildState) (row : Row) :
    DictExtends st.dict (processRow possible st row).dict := by
  unfold processRow
  exact foldl_extends
    (fun st1 ig => foldl_extends (fun st2 check => processCheck_extends _ _ _ _ _) _ _) _ _

lemma buildFinal_extends (metadata rows2 : List Row) (possible : Finset (List Char)) :
    DictExtends (buildFinal metadata possible).dict
      (buildFinal (metadata ++ rows2) possible).dict := by
  unfold buildFinal
  rw [List.foldl_append]
  exact foldl_extends (fun st row => processRow_extends _ _ _) _ _

lemma processCheck_len {possible : Finset (List Char)} {row : Row} {i : Nat}
    {st : BuildState} {check : List Char} (hin : check ∈ possible) :
    ((processCheck possible row i st check).dict check).length =
      (st.dict check).length + 1 := by
  rw [processCheck_dict possible row i st check hin, addRec_apply, if_pos rfl]
  simp

/-- C2: every occurrence record stored under a key `k` has
`endPos - startPos = 4` and `k` equal to the literal window at its
`startPos` or one of the three sentinel-substituted variants; per-key
lists grow only by appending as the corpus scan proceeds (scan order is
preserved); and each matching check appends exactly one record (no
deduplication). -/
theorem c2_index_completeness (metadata : List Row) (possible : Finset (List Char)) :
    (∀ k r, r ∈ (buildFinal metadata possible).dict k → RecOK metadata k r) ∧
    (∀ rows2 k, ∃ suf, (buildFinal (metadata ++ rows2) possible).dict k =
        (buildFinal metadata possible).dict k ++ suf) ∧
    (∀ (st : BuildState) (row : Row) (i : Nat) (check : List Char), check ∈ possible →
      ((processCheck possible row i st check).dict check).length =
        (st.dict check).length + 1) :=
  ⟨buildFinal_recOK metadata possible,
   fun rows2 => buildFinal_extends metadata rows2 possible,
   fun _ _ _ _ hin => processCheck_len hin⟩

/-- Witness for C2, on the end-to-end scenario's single row. -/
theorem c2_index_completeness_witness :
    RecOK [exRow] (['c', 'a', 't', 's'])
      { fileIndex := 0, seqIndex := 0, startPos := 0, endPos := 4, phraseLen := 4 } ∧
    ((processCheck exD exRow 0 BuildState.init ['c', 'a', 't', 's']).dict
        ['c', 'a', 't', 's']).length =
      (BuildState.init.dict ['c', 'a', 't', 's']).length + 1 :=
  ⟨(c2_index_completeness [exRow] exD).1 _ _ (by decide),
   (c2_index_completeness [exRow] exD).2.2 BuildState.init exRow 0 _ (by decide)⟩

/-! The interning tables: well-formedness (C3). -/

/-- The interning invariant: the assigned indices are exactly
`0 .. count - 1` (contiguous, no gaps), and the forward and reverse maps
agree in both directions. -/
def WFInterner {V : Type} (st : Interner V) : Prop :=
  (∀ i, (st.indexToVal i).isSome ↔ i < st.count) ∧
  (∀ v i, st.valToIndex v = some i → st.indexToVal i = some v) ∧
  (∀ i v, st.indexToVal i = some v → st.valToIndex v = some i)

lemma internStep_already {V : Type} [DecidableEq V] {st : Interner V} {v : V}
    (h : st.valToIndex v ≠ none) : internStep st v = st := by
  unfold internStep
  rw [if_neg h]

lemma internStep_fresh {V : Type} [DecidableEq V] {st : Interner V} {v : V}
    (h : st.valToIndex v = none) :
    (internStep st v).valToIndex v = some st.count ∧
      (internStep st v).count = st.count + 1 := by
  unfold internStep
  rw [if_pos h]
  exact ⟨if_pos rfl, rfl⟩

lemma internStep_idem {V : Type} [DecidableEq V] (st : Interner V) (v : V) :
    internStep (internStep st v) v = internStep st v := by
  by_cases h : st.valToIndex v = none
  · refine internStep_already ?_
    rw [(internStep_fresh h).1]
    exact Option.some_ne_none _
  · rw [internStep_already h, internStep_already h]

lemma wf_init {V : Type} : WFInterner (Interner.init : Interner V) := by
  refine ⟨fun i => ?_, fun v i h => ?_, fun i v h => ?_⟩ <;>
    simp [Interner.init] at *

lemma wf_internStep {V : Type} [DecidableEq V] {st : Interner V}
    (h : WFInterner st) (v : V) : WFInterner (internStep st v) := by
  obtain ⟨h1, h2, h3⟩ := h
  by_cases hv : st.valToIndex v = none
  · unfold internStep
    rw [if_pos hv]
    refine ⟨?_, ?_, ?_⟩
    · intro i
      dsimp only
      by_cases hi : i = st.count
      · subst hi
        simp
      · rw [if_neg hi, h1 i]
        omega
    · intro w j hj
      dsimp only at hj ⊢
      by_cases hw : w = v
      · rw [if_pos hw] at hj
        cases hj
        rw [if_pos rfl, hw]
      · rw [if_neg hw] at hj
        have hfwd := h2 w j hj
        have hjlt : j < st.count := (h1 j).mp (by rw [hfwd]; rfl)
        rw [if_neg (by omega)]
        exact hfwd
    · intro j w hj
      dsimp only at hj ⊢
      by_cases hjc : j = st.count
      · rw [if_pos hjc] at hj
        cases hj
        rw [if_pos rfl, hjc]
      · rw [if_neg hjc] at hj
        have hbwd := h3 j w hj
        by_cases hw : w = v
        · subst hw
          rw [hbwd] at hv
          cases hv
        · rw [if_neg hw]
          exact hbwd
  · rw [internStep_already hv]
    exact ⟨h1, h2, h3⟩

lemma processCheck_wf {possible : Finset (List Char)} {row : Row} {i : Nat}
    {st : BuildState} (h : WFInterner st.files ∧ WFInterner st.seqs)
    (check : List Char) :
    WFInterner (processCheck possible row i st check).files ∧
      WFInterner (processCheck possible row i st check).seqs := by
  unfold processCheck
  by_cases hin : check ∈ possible
  · rw [if_pos hin]
    exact ⟨wf_internStep h.1 _, wf_internStep h.2 _⟩
  · rw [if_neg hin]
    exact h

lemma buildFinal_wf (metadata : List Row) (possible : Finset (List Char)) :
    WFInterner (buildFinal metadata possible).files ∧
      WFInterner (buildFinal metadata possible).seqs := by
  unfold buildFinal
  refine foldl_preserve
    (fun st : BuildState => WFInterner st.files ∧ WFInterner st.seqs)
    ⟨wf_init, wf_init⟩ ?_
  intro st row _ hst
  unfold processRow
  refine foldl_preserve
    (fun st2 : BuildState => WFInterner st2.files ∧ WFInterner st2.seqs) hst ?_
  intro st1 ig _ h1
  refine foldl_preserve
    (fun st2 : BuildState => WFInterner st2.files ∧ WFInterner st2.seqs) h1 ?_
  intro st2 check _ h2
  exact processCheck_wf h2 check

/-- C3: interning is idempotent (re-interning a value changes nothing and
returns the same index), a fresh value receives the next contiguous index
`count` (hence first-seen order and indices exactly `0..N-1`), and in the
tables built by `get_valid_filenames_per_ngram` the forward and reverse
maps agree, with assigned indices exactly `0..count-1`. -/
theorem c3_interning (metadata : List Row) (possible : Finset (List Char)) :
    (∀ (st : Interner String) (v : String),
        internStep (internStep st v) v = internStep st v) ∧
    (∀ (st : Interner Nat) (v : Nat),
        internStep (internStep st v) v = internStep st v) ∧
    (∀ (st : Interner String) (v : String), st.valToIndex v = none →
        (internStep st v).valToIndex v = some st.count ∧
          (internStep st v).count = st.count + 1) ∧
    (∀ (st : Interner Nat) (v : Nat), st.valToIndex v = none →
        (internStep st v).valToIndex v = some st.count ∧
          (internStep st v).count = st.count + 1) ∧
    WFInterner (buildFinal metadata possible).files ∧
    WFInterner (buildFinal metadata possible).seqs :=
  ⟨fun st v => internStep_idem st v,
   fun st v => internStep_idem st v,
   fun _ _ h => internStep_fresh h,
   fun _ _ h => internStep_fresh h,
   (buildFinal_wf metadata possible).1,
   (buildFinal_wf metadata possible).2⟩

/-- Witness for C3: the invariants evaluated on the scenario's tables and
on a concrete fresh intern. -/
theorem c3_interning_witness :
    internStep (internStep (Interner.init : Interner String) "a") "a" =
      internStep (Interner.init : Interner String) "a" ∧
    (internStep (Interner.init : Interner String) "a").valToIndex "a" = some 0 ∧
    (internStep (Interner.init : Interner String) "a").count = 1 ∧
    WFInterner (buildFinal [exRow] exD).files :=
  ⟨(c3_interning [exRow] exD).1 _ "a",
   ((c3_interning [exRow] exD).2.2.1 _ "a" rfl).1,
   ((c3_interning [exRow] exD).2.2.1 _ "a" rfl).2,
   (c3_interning [exRow] exD).2.2.2.2.1⟩

/-! The memoized parquet cache of `fingerspell_stats.calc_stats` (C9). -/

/-- The pair of globals `curr_parquet_filepath` / `curr_parquet`, both
initially `None`. -/
structure CacheState (T : Type) where
  cachedPath : Option String
  cachedTable : Option T

/-- Initial global state (`curr_parquet_filepath = None`,
`curr_parquet = None`). -/
def CacheState.start {T : Type} : CacheState T :=
  { cachedPath := none, cachedTable := none }

/-- The caching logic of `calc_stats`: reload the parquet table only when
no file is cached yet or the requested filename differs from the cached
one.  `loadFn` abstracts `pd.read_parquet`; the returned flag records
whether a load was performed.  The statistics computed from the loaded
table are out of scope; only the cache behaviour is modelled. -/
def calcStatsStep {T : Type} (loadFn : String → T) (st : CacheState T)
    (parquet_filepath : String) : CacheState T × Bool :=
  if st.cachedPath = none ∨ ¬ st.cachedPath = some parquet_filepath then
    ({ cachedPath := some parquet_filepath,
       cachedTable := some (loadFn parquet_filepath) }, true)
  else (st, false)

/-- A sequence of requests through `calc_stats`, returning the final
state and the number of loads performed. -/
def runRequests {T : Type} (loadFn : String → T) (st : CacheState T)
    (reqs : List String) : CacheState T × Nat :=
  reqs.foldl
    (fun acc req =>
      let r := calcStatsStep loadFn acc.1 req
      (r.1, acc.2 + (if r.2 then 1 else 0)))
    (st, 0)

lemma calcStatsStep_miss {T : Type} (loadFn : String → T) (st : CacheState T)
    (f : String) (h : st.cachedPath ≠ some f) :
    calcStatsStep loadFn st f =
      ({ cachedPath := some f, cachedTable := some (loadFn f) }, true) := by
  unfold calcStatsStep
  rw [if_pos (Or.inr h)]

lemma calcStatsStep_hit {T : Type} (loadFn : String → T) (st : CacheState T)
    (f : String) (h : st.cachedPath = some f) :
    calcStatsStep loadFn st f = (st, false) := by
  unfold calcStatsStep
  rw [if_neg]
  push_neg
  exact ⟨by rw [h]; exact Option.some_ne_none _, h⟩

/-- C9: over requests processed through the memoized state, two
consecutive requests for the same filename `f`, starting from any state
not already caching `f`, perform exactly one load; a request for a
filename different from the cached one performs a load that replaces the
cached table; and no load ever occurs while the requested filename equals
the cached one. -/
theorem c9_cache_behavior {T : Type} (loadFn : String → T) (st : CacheState T)
    (f : String) :
    (st.cachedPath ≠ some f →
      runRequests loadFn st [f, f] =
        ({ cachedPath := some f, cachedTable := some (loadFn f) }, 1)) ∧
    (st.cachedPath ≠ some f →
      (calcStatsStep loadFn st f).1 =
        { cachedPath := some f, cachedTable := some (loadFn f) } ∧
      (calcStatsStep loadFn st f).2 = true) ∧
    (st.cachedPath = some f → calcStatsStep loadFn st f = (st, false)) := by
  refine ⟨?_, ?_, fun h => calcStatsStep_hit loadFn st f h⟩
  · intro h
    unfold runRequests
    simp only [List.foldl_cons, List.foldl_nil, calcStatsStep_miss loadFn st f h]
    rw [calcStatsStep_hit loadFn _ f rfl]
    simp
  · intro h
    rw [calcStatsStep_miss loadFn st f h]
    exact ⟨rfl, rfl⟩

/-- Witness for C9: from the initial (empty) globals, two requests for
`"a.parquet"` load once; a hit performs no load. -/
theorem c9_cache_behavior_witness :
    runRequests (fun _ => (0 : Nat)) CacheState.start ["a.parquet", "a.parquet"] =
      ({ cachedPath := some "a.parquet", cachedTable := some 0 }, 1) ∧
    calcStatsStep (fun _ => (0 : Nat))
        { cachedPath := some "a.parquet", cachedTable := some 0 } "a.parquet" =
      ({ cachedPath := some "a.parquet", cachedTable := some 0 }, false) :=
  ⟨(c9_cache_behavior (fun _ => (0 : Nat)) CacheState.start "a.parquet").1
     (by simp [CacheState.start]),
   (c9_cache_behavior (fun _ => (0 : Nat))
     { cachedPath := some "a.parquet", cachedTable := some 0 } "a.parquet").2.2 rfl⟩

/-! The lazy sample retrieval and interpolation engine (C7).  The source
repository only documents this component (module docstring and spec
section 4.5); the retrieval half is not implemented, so the definitions
below are modelled from the spec. -/

/-- Modelled from the spec: a frame of the extracted range is "missing"
when its reference (right-hand) value is absent.  Frames are embedded as
`Option ℚ` (one representative numeric column), `none` meaning missing. -/
def missingAt (frames : List (Option ℚ)) (i : Nat) : Bool :=
  match frames[i]? with
  | some none => true
  | _ => false

/-- Modelled from the spec: the frame at `i` exists and is present. -/
def presentAt (frames : List (Option ℚ)) (i : Nat) : Bool :=
  match frames[i]? with
  | some (some _) => true
  | _ => false

/-- Modelled from the spec: positions `s, s+1, …, s+k-1` form a maximal
run of consecutive missing frames (nonempty, all missing, bounded on each
side by a present frame or the range boundary). -/
def isMaximalRun (frames : List (Option ℚ)) (s k : Nat) : Prop :=
  0 < k ∧ s + k ≤ frames.length ∧
  (∀ j, j < k → missingAt frames (s + j) = true) ∧
  (s = 0 ∨ presentAt frames (s - 1) = true) ∧
  (s + k = frames.length ∨ presentAt frames (s + k) = true)

instance (frames : List (Option ℚ)) (s k : Nat) : Decidable (isMaximalRun frames s k) := by
  unfold isMaximalRun
  infer_instance

/-- Modelled from the spec: the gap policy's scan — every maximal missing
run must have length at most `max_interp_frames` and be bounded on both
sides by present frames (a run touching an end of the extracted range is
not interpolable and triggers rejection under the same rule). -/
def goodGaps (max_interp_frames : Nat) (frames : List (Option ℚ)) : Prop :=
  ∀ s, s < frames.length → ∀ k, k ≤ frames.length →
    isMaximalRun frames s k →
    k ≤ max_interp_frames ∧ 0 < s ∧ s + k < frames.length

instance (m : Nat) (frames : List (Option ℚ)) : Decidable (goodGaps m frames) := by
  unfold goodGaps
  infer_instance

/-- Modelled from the spec: the last present frame strictly before `i`
(its index and value). -/
def prevPresent (frames : List (Option ℚ)) : Nat → Option (Nat × ℚ)
  | 0 => none
  | i + 1 =>
    match frames[i]? with
    | some (some v) => some (i, v)
    | _ => prevPresent frames i

/-- Modelled from the spec: the first present frame of a list (its offset
and value). -/
def findFirstSome : List (Option ℚ) → Option (Nat × ℚ)
  | [] => none
  | some v :: _ => some (0, v)
  | none :: rest => (findFirstSome rest).map (fun p => (p.1 + 1, p.2))

/-- Modelled from the spec: the first present frame at or after `i`. -/
def nextPresent (frames : List (Option ℚ)) (i : Nat) : Option (Nat × ℚ) :=
  (findFirstSome (frames.drop i)).map (fun p => (i + p.1, p.2))

/-- Modelled from the spec: the value served for frame `i` — the stored
value when present, otherwise the linear interpolation between the last
present frame before and the first present frame after, evenly spaced by
position (nearest present value at an unbounded edge, `0` if no frame is
present at all; these edge cases are rejected by the gap policy anyway). -/
def interpAt (frames : List (Option ℚ)) (i : Nat) : ℚ :=
  match frames[i]? with
  | some (some v) => v
  | _ =>
    match prevPresent frames i, nextPresent frames i with
    | some (p, a), some (q, b) => a + (b - a) * ((i : ℚ) - (p : ℚ)) / ((q : ℚ) - (p : ℚ))
    | some (_, a), none => a
    | none, some (_, b) => b
    | none, none => 0

/-- Modelled from the spec: the interpolated frame sequence. -/
def interpolate (frames : List (Option ℚ)) : List ℚ :=
  (List.range frames.length).map (interpAt frames)

/-- Modelled from the spec: `fetch` — reject (a distinguishable `none`,
never an exception) when the gap policy fails, otherwise return the
interpolated sample. -/
def fetchSample (max_interp_frames : Nat) (frames : List (Option ℚ)) :
    Option (List ℚ) :=
  if goodGaps max_interp_frames frames then some (interpolate frames) else none

lemma missingAt_iff {frames : List (Option ℚ)} {i : Nat} :
    missingAt frames i = true ↔ frames[i]? = some none := by
  rcases hfi : frames[i]? with _ | (_ | v) <;> simp [missingAt, hfi]

lemma prevPresent_run {frames : List (Option ℚ)} {s : Nat} {a : ℚ}
    (hs : 0 < s) (ha : frames[s - 1]? = some (some a)) :
    ∀ j, (∀ t, t < j → frames[s + t]? = some none) →
      prevPresent frames (s + j) = some (s - 1, a) := by
  intro j
  induction j with
  | zero =>
    intro _
    obtain ⟨s0, rfl⟩ : ∃ s0, s = s0 + 1 := ⟨s - 1, by omega⟩
    show prevPresent frames (s0 + 1 + 0) = _
    rw [Nat.add_zero]
    unfold prevPresent
    rw [show s0 + 1 - 1 = s0 from rfl] at ha
    rw [ha]
    rfl
  | succ j ih =>
    intro hmiss
    have hj : frames[s + j]? = some none := hmiss j (by omega)
    rw [show s + (j + 1) = (s + j) + 1 from by omega]
    unfold prevPresent
    rw [hj]
    exact ih (fun t ht => hmiss t (by omega))

lemma findFirstSome_spec {b : ℚ} :
    ∀ (r : Nat) (l : List (Option ℚ)), (∀ t, t < r → l[t]? = some none) →
      l[r]? = some (some b) → findFirstSome l = some (r, b) := by
  intro r
  induction r with
  | zero =>
    intro l _ hr
    cases l with
    | nil => simp at hr
    | cons x rest =>
      simp only [List.getElem?_cons_zero] at hr
      cases hr
      rfl
  | succ r ih =>
    intro l hmiss hr
    cases l with
    | nil => simp at hr
    | cons x rest =>
      have h0 : x = none := by
        have := hmiss 0 (by omega)
        simpa using this
      subst h0
      have hrec : findFirstSome rest = some (r, b) :=
        ih rest (fun t ht => by simpa using hmiss (t + 1) (by omega))
          (by simpa using hr)
      show (findFirstSome rest).map _ = _
      rw [hrec]
      rfl

lemma nextPresent_run {frames : List (Option ℚ)} {s mrun : Nat} {b : ℚ}
    (hb : frames[s + mrun]? = some (some b))
    (hmiss : ∀ t, t < mrun → frames[s + t]? = some none) :
    ∀ j, j ≤ mrun → nextPresent frames (s + j) = some (s + mrun, b) := by
  intro j hj
  unfold nextPresent
  have hfind : findFirstSome (frames.drop (s + j)) = some (mrun - j, b) := by
    apply findFirstSome_spec
    · intro t ht
      rw [List.getElem?_drop, show s + j + t = s + (j + t) from by omega]
      exact hmiss (j + t) (by omega)
    · rw [List.getElem?_drop, show s + j + (mrun - j) = s + mrun from by omega]
      exact hb
  rw [hfind]
  have : s + j + (mrun - j) = s + mrun := by omega
  simp [this]

lemma interpolate_getElem {frames : List (Option ℚ)} {i : Nat}
    (h : i < frames.length) :
    (interpolate frames)[i]? = some (interpAt frames i) := by
  unfold interpolate
  rw [List.getElem?_map, List.getElem?_range h]
  rfl

/-- C7 (spec-modelled): a maximal missing run of length exactly
`max_interp_frames + 1` causes rejection — a distinguishable no-sample
result, never an exception; when the gap policy holds, a maximal run of
length exactly `max_interp_frames` bounded by present frames `a` and `b`
is linearly interpolated and the sample is returned, the `j`-th filled
frame being `a + (b - a) * (j + 1) / (max_interp_frames + 1)`. -/
theorem c7_gap_policy (m : Nat) (frames : List (Option ℚ)) :
    (∀ s, isMaximalRun frames s (m + 1) → fetchSample m frames = none) ∧
    (goodGaps m frames →
      fetchSample m frames = some (interpolate frames) ∧
      ∀ s a b, isMaximalRun frames s m →
        frames[s - 1]? = some (some a) → frames[s + m]? = some (some b) →
        ∀ j, j < m →
          (interpolate frames)[s + j]? =
            some (a + (b - a) * ((j : ℚ) + 1) / ((m : ℚ) + 1))) := by
  constructor
  · intro s hrun
    unfold fetchSample
    rw [if_neg]
    intro hgood
    have hkpos := hrun.1
    have hle := hrun.2.1
    have := hgood s (by omega) (m + 1) (by omega) hrun
    omega
  · intro hgood
    refine ⟨by unfold fetchSample; rw [if_pos hgood], ?_⟩
    intro s a b hrun ha hb j hj
    have hkpos := hrun.1
    have hle := hrun.2.1
    have hmiss := hrun.2.2.1
    have hmiss' : ∀ t, t < m → frames[s + t]? = some none :=
      fun t ht => missingAt_iff.mp (hmiss t ht)
    have hgs := hgood s (by omega) m (by omega) hrun
    have hs : 0 < s := hgs.2.1
    have hs1 : 1 ≤ s := hs
    have hij : s + j < frames.length := by omega
    rw [interpolate_getElem hij]
    have hmid : frames[s + j]? = some none := hmiss' j hj
    unfold interpAt
    rw [hmid]
    rw [prevPresent_run hs ha j (fun t ht => hmiss' t (by omega))]
    rw [nextPresent_run hb hmiss' j (by omega)]
    have h1 : ((s + j : Nat) : ℚ) - ((s - 1 : Nat) : ℚ) = (j : ℚ) + 1 := by
      rw [Nat.cast_sub hs1]
      push_cast
      ring
    have h2 : ((s + m : Nat) : ℚ) - ((s - 1 : Nat) : ℚ) = (m : ℚ) + 1 := by
      rw [Nat.cast_sub hs1]
      push_cast
      ring
    show some (a + (b - a) * (((s + j : Nat) : ℚ) - ((s - 1 : Nat) : ℚ)) /
        (((s + m : Nat) : ℚ) - ((s - 1 : Nat) : ℚ))) = _
    rw [h1, h2]

/-- Frames `[10, gap, 20]`: one maximal interior run of length 1. -/
def exFrames : List (Option ℚ) := [some 10, none, some 20]

/-- Frames `[0, gap, gap, 30]`: one maximal run of length 2. -/
def exFrames2 : List (Option ℚ) := [some 0, none, none, some 30]

/-- Witness for C7: with `max_interp_frames = 1`, the length-2 run is
rejected, while the length-1 run between 10 and 20 is interpolated (to
`15`) and the sample returned. -/
theorem c7_gap_policy_witness :
    fetchSample 1 exFrames2 = none ∧
    fetchSample 1 exFrames = some (interpolate exFrames) ∧
    (interpolate exFrames)[1 + 0]? =
      some (10 + (20 - 10) * (((0 : Nat) : ℚ) + 1) / (((1 : Nat) : ℚ) + 1)) := by
  have h2 := (c7_gap_policy 1 exFrames).2 (by decide)
  exact ⟨(c7_gap_policy 1 exFrames2).1 1 (by decide),
         h2.1,
         h2.2 1 10 20 (by decide) (by decide) (by decide) 0 (by decide)⟩

end Fingerspelling
